import Mathlib

/-!
Verification of the registry reverse-dependency engine
(`src/main.rs`, `src/index.rs`, `src/synth_workspace.rs`).

Shallow embedding conventions:
* `semver::Version` restricted to plain `MAJOR.MINOR.PATCH` versions is
  `SemVer` (the claims only exercise plain versions).
* The in-memory index `HashMap<String, BTreeMap<semver::Version, Version>>`
  is a list of `(name, sorted association list)` pairs; `BTreeMap` collect
  is modelled by repeated sorted insert with overwrite on an equal key.
* External parsers (`semver::VersionReq::parse`, cargo platform and
  rust-version parsing) are parameters of the embedded functions.
* Rust `str::contains` is `containsSub`.
-/

/-- `semver::Version` restricted to plain MAJOR.MINOR.PATCH versions. -/
structure SemVer where
  major : Nat
  minor : Nat
  patch : Nat
deriving DecidableEq

namespace SemVer

/-- Lexicographic strict order on (major, minor, patch), as in the semver
crate for plain versions. -/
def lt (a b : SemVer) : Prop :=
  a.major < b.major ∨
    (a.major = b.major ∧
      (a.minor < b.minor ∨ (a.minor = b.minor ∧ a.patch < b.patch)))

instance : LT SemVer := ⟨SemVer.lt⟩

instance decidableLT : ∀ a b : SemVer, Decidable (a < b) := fun a b =>
  match a, b with
  | ⟨x1, y1, z1⟩, ⟨x2, y2, z2⟩ => by
    change Decidable (SemVer.lt ⟨x1, y1, z1⟩ ⟨x2, y2, z2⟩)
    unfold SemVer.lt
    exact inferInstance

theorem lt_def (a b : SemVer) : a < b ↔
    (a.major < b.major ∨
      (a.major = b.major ∧
        (a.minor < b.minor ∨ (a.minor = b.minor ∧ a.patch < b.patch)))) :=
  Iff.rfl

theorem lt_trans {a b c : SemVer} (h1 : a < b) (h2 : b < c) : a < c := by
  obtain ⟨x1, y1, z1⟩ := a
  obtain ⟨x2, y2, z2⟩ := b
  obtain ⟨x3, y3, z3⟩ := c
  rw [lt_def] at *
  simp only at *
  omega

theorem lt_irrefl (a : SemVer) : ¬ a < a := by
  obtain ⟨x, y, z⟩ := a
  rw [lt_def]
  simp only
  omega

theorem lt_trichotomy (a b : SemVer) : a < b ∨ a = b ∨ b < a := by
  obtain ⟨x1, y1, z1⟩ := a
  obtain ⟨x2, y2, z2⟩ := b
  rw [lt_def, lt_def]
  simp only [SemVer.mk.injEq]
  omega

theorem lt_asymm {a b : SemVer} (h : a < b) : ¬ b < a := by
  obtain ⟨x1, y1, z1⟩ := a
  obtain ⟨x2, y2, z2⟩ := b
  rw [lt_def] at *
  simp only at *
  omega

/-- Non-strict companion order. -/
def le (a b : SemVer) : Prop := a < b ∨ a = b

instance : LE SemVer := ⟨SemVer.le⟩

instance decidableLE : ∀ a b : SemVer, Decidable (a ≤ b) := fun a b =>
  match a, b with
  | ⟨x1, y1, z1⟩, ⟨x2, y2, z2⟩ => by
    change Decidable (SemVer.le ⟨x1, y1, z1⟩ ⟨x2, y2, z2⟩)
    unfold SemVer.le
    exact inferInstance

theorem le_def (a b : SemVer) : a ≤ b ↔ (a < b ∨ a = b) := Iff.rfl

theorem le_of_lt {a b : SemVer} (h : a < b) : a ≤ b := Or.inl h

theorem le_refl (a : SemVer) : a ≤ a := Or.inr rfl

theorem le_of_not_lt {a b : SemVer} (h : ¬ b < a) : a ≤ b := by
  rcases lt_trichotomy a b with h1 | h1 | h1
  · exact Or.inl h1
  · exact Or.inr h1
  · exact absurd h1 h

end SemVer

/-- One digit-only numeric component, as accepted by the semver crate for a
plain version component (nonempty, digits only; leading-zero handling is not
exercised by any claim). -/
def parseNatComp (s : List Char) : Option Nat :=
  if s ≠ [] ∧ s.all Char.isDigit then
    some (s.foldl (fun acc c => acc * 10 + (c.toNat - 48)) 0)
  else none

/-- Split a character list on the dot separator (the semantics of
`str::split` with a single-character pattern). -/
def splitDots : List Char → List (List Char)
  | [] => [[]]
  | c :: rest =>
    if c = '.' then [] :: splitDots rest
    else
      match splitDots rest with
      | [] => [[c]]
      | h :: t => (c :: h) :: t

/-- `semver::Version::parse` restricted to plain MAJOR.MINOR.PATCH input:
three dot-separated numeric components, anything else is a parse error. -/
def parseSemVer (s : String) : Option SemVer :=
  match splitDots s.data with
  | [a, b, c] =>
    match parseNatComp a, parseNatComp b, parseNatComp c with
    | some x, some y, some z => some ⟨x, y, z⟩
    | _, _, _ => none
  | _ => none

/-- Rust `str::contains` (substring containment) on `String`s. -/
def containsSub (s pat : String) : Bool :=
  s.data.tails.any (fun t => pat.data.isPrefixOf t)

/-- `ResolveErrorKind` (main.rs:410-412): the taxonomy actually present in
the code has exactly one variant. -/
inductive ResolveErrorKind where
  | DependencyFullyYanked
deriving DecidableEq

/-- `ResolveError` (main.rs:404-408). -/
structure ResolveError where
  crate_name : String
  version : SemVer
  kind : ResolveErrorKind
deriving DecidableEq

/-- `ResolveError::from_str` (main.rs:414-433): classify a raw resolver
diagnostic. The only recognised pattern pair is
"failed to select a version for the requirement" together with
"is yanked"; any other text is returned unclassified as `Err(value)`. -/
def ResolveError.from_str (crate_name : String) (version : SemVer)
    (value : String) : Except String ResolveError :=
  if containsSub value "failed to select a version for the requirement" &&
      containsSub value "is yanked" then
    Except.ok ⟨crate_name, version, ResolveErrorKind.DependencyFullyYanked⟩
  else
    Except.error value

/-- The classifier seen as `classify : text -> Option ErrorKind` (spec 4.5):
the kind component of `ResolveError::from_str`. -/
def classify (value : String) : Option ResolveErrorKind :=
  match ResolveError.from_str "" ⟨0, 0, 0⟩ value with
  | Except.ok e => some e.kind
  | Except.error _ => none

/-- `crates_index::DependencyKind`. -/
inductive DepKindSpec where
  | Normal
  | Dev
  | Build
deriving DecidableEq

/-- `crates_index::Dependency` (one dependency line of a registry record):
`crate_name` is the real target package, `name` the (possibly renamed)
declared name, `target` the optional platform predicate string. -/
structure DependencySpec where
  crate_name : String
  requirement : String
  kind : DepKindSpec
  optional : Bool
  default_features : Bool
  name : String
  features : List String
  target : Option String
deriving DecidableEq

/-- `crates_index::Version` (one registry record): version string, declared
dependencies, feature map, yank flag, optional link name, optional
minimum-supported-rust-version string. -/
structure VersionRecord where
  vers : String
  deps : List DependencySpec
  features : List (String × List String)
  yanked : Bool
  links : Option String
  rust_version : Option String
deriving DecidableEq

/-- One line of a registry file after `serde_jsonlines` deserialisation:
either the JSON was malformed, or it yielded a record. -/
inductive RawLine where
  | malformed
  | record (v : VersionRecord)
deriving DecidableEq

/-- One package file of the registry snapshot: file name and its lines. -/
structure RegistryFile where
  name : String
  lines : List RawLine
deriving DecidableEq

/-- Sorted association list standing for
`BTreeMap<semver::Version, crates_index::Version>`. -/
abbrev VersionMap := List (SemVer × VersionRecord)

/-- `BTreeMap::insert`: insert into a list sorted ascending by key,
overwriting the stored record when the key is already present. -/
def btreeInsert (k : SemVer) (v : VersionRecord) : VersionMap → VersionMap
  | [] => [(k, v)]
  | (k0, v0) :: rest =>
    if k < k0 then (k, v) :: (k0, v0) :: rest
    else if k = k0 then (k, v) :: rest
    else (k0, v0) :: btreeInsert k v rest

/-- `FromIterator for BTreeMap` over the parsed records of one file:
repeated insert in file order (a later record with an equal parsed version
overwrites an earlier one). -/
def btreeOfList (xs : List (SemVer × VersionRecord)) : VersionMap :=
  xs.foldl (fun acc kv => btreeInsert kv.1 kv.2 acc) []

/-- First collect of `parse_index` (index.rs:65-67): deserialise every line
of the file; the first malformed line aborts the file with an error. -/
def collectLines : List RawLine → Except String (List VersionRecord)
  | [] => Except.ok []
  | RawLine.malformed :: _ => Except.error "malformed JSON record"
  | RawLine.record v :: rest =>
    match collectLines rest with
    | Except.ok vs => Except.ok (v :: vs)
    | Except.error e => Except.error e

/-- Second collect of `parse_index` (index.rs:68-71): parse every record's
version string; the first unparsable version aborts the file with an
error; otherwise build the `BTreeMap` keyed by parsed version. -/
def parseVersions : List VersionRecord → Except String (List (SemVer × VersionRecord))
  | [] => Except.ok []
  | v :: rest =>
    match parseSemVer v.vers with
    | none => Except.error v.vers
    | some sv =>
      match parseVersions rest with
      | Except.ok kvs => Except.ok ((sv, v) :: kvs)
      | Except.error e => Except.error e

/-- Per-file body of `parse_index` (index.rs:61-72). -/
def parseFile (file : RegistryFile) : Except String (String × VersionMap) :=
  match collectLines file.lines with
  | Except.error e => Except.error e
  | Except.ok vs =>
    match parseVersions vs with
    | Except.error e => Except.error e
    | Except.ok kvs => Except.ok (file.name, btreeOfList kvs)

/-- The in-memory index: package name to sorted version map. -/
abbrev PackageIndex := List (String × VersionMap)

/-- `parse_index` (index.rs:56-75): parse every registry file; any file
error aborts the whole load (the parallel `collect` into
`anyhow::Result<HashMap<..>>` is fail-fast), so no partial index is ever
produced. -/
def parseIndex : List RegistryFile → Except String PackageIndex
  | [] => Except.ok []
  | f :: rest =>
    match parseFile f with
    | Except.error e => Except.error e
    | Except.ok p =>
      match parseIndex rest with
      | Except.error e => Except.error e
      | Except.ok ps => Except.ok (p :: ps)

/-- Association-list lookup (used for `HashMap::get` / cache lookups). -/
def alookup {α β : Type} [DecidableEq α] : List (α × β) → α → Option β
  | [], _ => none
  | (k, v) :: rest, k0 => if k0 = k then some v else alookup rest k0

/-- Association-list insert-or-overwrite (used for the on-disk cache: a
second write to the same path overwrites the file). -/
def ainsert {α β : Type} [DecidableEq α] (k : α) (v : β) :
    List (α × β) → List (α × β)
  | [] => [(k, v)]
  | (k0, v0) :: rest =>
    if k = k0 then (k, v) :: rest else (k0, v0) :: ainsert k v rest

/-- `versions.iter().rev().find(|(_, version)| !version.is_yanked())`
(main.rs:127-130): latest non-yanked version of one package, scanning the
ascending version map from highest to lowest. -/
def latestNonYanked (versions : VersionMap) : Option (SemVer × VersionRecord) :=
  versions.reverse.find? (fun p => ! p.2.yanked)

/-- The work items the orchestrator feeds to the worker pool
(main.rs:124-139): one per package that has a latest non-yanked version;
all-yanked packages are skipped (the `None` arm only advances the progress
bar). -/
def workItems (index : PackageIndex) : List (String × SemVer) :=
  index.filterMap (fun p => (latestNonYanked p.2).map (fun q => (p.1, q.1)))

/-- A cached lockfile (opaque content). -/
abbrev Lockfile := Nat

/-- The abstract external Resolver: per (package, exact version) it either
produces a lockfile or fails with a diagnostic text. Deterministic because
a resolution depends only on the synthesized descriptor, which is a pure
function of the work item. -/
abbrev Resolver := String × SemVer → Except String Lockfile

/-- Shared / persistent state of one orchestrator run: the on-disk lockfile
cache keyed by (package, version) scratch path, the `resolve_errors` mutex
list, and (instrumentation) the list of keys the external Resolver was
invoked for. -/
structure OrchState where
  cache : List ((String × SemVer) × Lockfile)
  errors : List ResolveError
  invoked : List (String × SemVer)
deriving DecidableEq

/-- Processing of one work item by the `try_for_each` closure
(main.rs:140-191).  Inside `GLOBAL_CONTEXT.with`: a pre-existing lockfile
at the item's scratch path is reused without invoking the Resolver
(main.rs:146-147); otherwise the Resolver runs; on success the lockfile is
persisted (main.rs:178-181); on a classifiable failure a `ResolveError` is
pushed (main.rs:170-177); on an unclassifiable failure the `?` at
main.rs:173 aborts the `with` closure — but the closure's `Result` is
discarded at main.rs:190, so the outer closure still returns `Ok` and only
the side effects performed before the abort remain. -/
def processItem (resolve : Resolver) (st : OrchState)
    (item : String × SemVer) : OrchState :=
  match alookup st.cache item with
  | some _ => st
  | none =>
    match resolve item with
    | Except.ok lock =>
      { cache := ainsert item lock st.cache, errors := st.errors,
        invoked := st.invoked ++ [item] }
    | Except.error diag =>
      match ResolveError.from_str item.1 item.2 diag with
      | Except.ok re =>
        { cache := st.cache, errors := st.errors ++ [re],
          invoked := st.invoked ++ [item] }
      | Except.error _ =>
        { cache := st.cache, errors := st.errors,
          invoked := st.invoked ++ [item] }

/-- The value the `GLOBAL_CONTEXT.with` closure returns for one work item
(main.rs:142-190): `Err` exactly on an unclassifiable resolution failure.
This value is discarded at main.rs:190. -/
def withResult (resolve : Resolver) (st : OrchState)
    (item : String × SemVer) : Except String Unit :=
  match alookup st.cache item with
  | some _ => Except.ok ()
  | none =>
    match resolve item with
    | Except.ok _ => Except.ok ()
    | Except.error diag =>
      match ResolveError.from_str item.1 item.2 diag with
      | Except.ok _ => Except.ok ()
      | Except.error msg => Except.error msg

/-- The whole `try_for_each` batch (main.rs:124-192), sequentialised (the
parallel bridge gives no ordering guarantee; cache and error list are
order-insensitive sets for the properties proved here).  Because the
`with` result is discarded, every outer closure invocation returns `Ok`,
so the fold never short-circuits. -/
def resolveBatch (resolve : Resolver) :
    OrchState → List (String × SemVer) → Except String OrchState
  | st, [] => Except.ok st
  | st, item :: rest => resolveBatch resolve (processItem resolve st item) rest

/-- One full orchestrator pass over an index starting from cache state
`st`: work-item selection (main.rs:124-139) followed by the resolution
batch. -/
def resolveAll (resolve : Resolver) (st : OrchState)
    (index : PackageIndex) : Except String OrchState :=
  resolveBatch resolve st (workItems index)

/-- A parsed `semver::VersionReq` is used only through `matches`; the
external parser is a parameter of type `ReqParser`. -/
abbrev ReqParser := String → Option (SemVer → Bool)

/-- One reverse edge: (target package, selected target version) to
(dependent package, dependent version). -/
abbrev RevEdge := (String × SemVer) × (String × SemVer)

/-- Per-dependency edge construction of the reverse-index builder
(main.rs:213-260, commented-out block; it matches spec 4.2 verbatim):
skip `Dev` dependencies; an unknown target package, an unparsable
requirement, or no non-yanked matching target version silently yields no
edge; otherwise the edge is keyed under the first version, scanning the
target's ascending version map from highest to lowest, that satisfies the
requirement and is not yanked. -/
def depEdge (parseReq : ReqParser) (index : PackageIndex)
    (srcName : String) (srcVer : SemVer) (dep : DependencySpec) :
    Option RevEdge :=
  if dep.kind = DepKindSpec.Dev then none
  else
    match alookup index dep.crate_name with
    | none => none
    | some depVersions =>
      match parseReq dep.requirement with
      | none => none
      | some req =>
        match depVersions.reverse.find?
            (fun p => req p.1 && ! p.2.yanked) with
        | none => none
        | some (depSv, _) =>
          some ((dep.crate_name, depSv), (srcName, srcVer))

/-- The reverse-index builder (main.rs:204-264, commented-out block): for
every non-yanked (package, version) pair and every dependency, insert the
accepted edge.  The concurrent `DashMap`-of-`DashSet` is modelled as the
set of inserted edges, given as a list whose order is irrelevant
(membership only). -/
def buildReverseIndex (parseReq : ReqParser) (index : PackageIndex) :
    List RevEdge :=
  index.flatMap (fun p =>
    p.2.flatMap (fun q =>
      if q.2.yanked then []
      else q.2.deps.filterMap (depEdge parseReq index p.1 q.1)))

/-- Dependents of one (package, version) key in the reverse index
(main.rs:283-285): the value set of the nested map, here the edge list
filtered by key. -/
def dependentsOf (edges : List RevEdge) (name : String) (sv : SemVer) :
    List (String × SemVer) :=
  (edges.filter (fun e => e.1.1 = name && e.1.2 = sv)).map (fun e => e.2)

/-- BFS loop of the reverse-dependency walk (main.rs:282-294): pop a
(package, version) pair from the queue front, insert every not-yet-seen
dependent pair into the result set and push it onto the queue back.
`seen` is the growing `reverse_dependencies` set (a `HashSet` of
(name, version) pairs in the code), `log` records each dequeued pair
(instrumentation for the visit count).  `fuel` bounds the iteration count
for termination; every theorem below exhibits enough fuel for the queue to
empty. -/
def walkLoop (edges : List RevEdge) :
    Nat → List (String × SemVer) → List (String × SemVer) →
    List (String × SemVer) →
    List (String × SemVer) × List (String × SemVer)
  | 0, seen, _, log => (seen, log)
  | _ + 1, seen, [], log => (seen, log)
  | fuel + 1, seen, (name, sv) :: queue, log =>
    let step := (dependentsOf edges name sv).foldl
      (fun (acc : List (String × SemVer) × List (String × SemVer)) d =>
        if d ∈ acc.1 then acc else (acc.1 ++ [d], acc.2 ++ [d]))
      (seen, queue)
    walkLoop edges fuel step.1 step.2 (log ++ [(name, sv)])

/-- The reverse-dependency walk (main.rs:272-294): seed the queue with
every version of the target package matching the search requirement, then
run the BFS loop from an empty seen set; the result is the seen set
(first component) with the dequeue log (second component). -/
def walk (edges : List RevEdge) (index : PackageIndex) (target : String)
    (req : SemVer → Bool) (fuel : Nat) :
    List (String × SemVer) × List (String × SemVer) :=
  let seeds :=
    match alookup index target with
    | none => []
    | some versions =>
      (versions.filter (fun p => req p.1)).map (fun p => (target, p.1))
  walkLoop edges fuel [] seeds []

/-- `cargo::core::dependency::DepKind`. -/
inductive DepKindCargo where
  | Normal
  | Development
  | Build
deriving DecidableEq

/-- The 1:1 kind mapping of `synth_dependencies`
(synth_workspace.rs:136-140). -/
def mapDepKind : DepKindSpec → DepKindCargo
  | DepKindSpec.Normal => DepKindCargo.Normal
  | DepKindSpec.Dev => DepKindCargo.Development
  | DepKindSpec.Build => DepKindCargo.Build

/-- One resolver-native (`cargo::core::Dependency`) entry.  Parsed values
(the version requirement and the platform expression) are kept as the
outputs of the parameter parsers. -/
structure CargoDependency where
  package_name : String
  version_req : String
  default_features : Bool
  explicit_name : String
  features : List String
  kind : DepKindCargo
  optional : Bool
  platform : Option String
deriving DecidableEq

/-- `synth_dependencies` per-entry body (synth_workspace.rs:126-149):
`Dependency::parse` parses the requirement (first possible failure), the
setters copy the flags, rename, features, kind and optionality, then the
platform predicate is parsed with failure propagated by `?`. -/
def synthDependency (parseReqD parsePlatform : String → Option String)
    (dep : DependencySpec) : Except String CargoDependency :=
  match parseReqD dep.requirement with
  | none => Except.error dep.requirement
  | some r =>
    match dep.target with
    | none =>
      Except.ok ⟨dep.crate_name, r, dep.default_features, dep.name,
        dep.features, mapDepKind dep.kind, dep.optional, none⟩
    | some t =>
      match parsePlatform t with
      | none => Except.error t
      | some pl =>
        Except.ok ⟨dep.crate_name, r, dep.default_features, dep.name,
          dep.features, mapDepKind dep.kind, dep.optional, some pl⟩

/-- Fail-fast `collect` over a dependency list
(synth_workspace.rs:123-151). -/
def synthDepList (parseReqD parsePlatform : String → Option String) :
    List DependencySpec → Except String (List CargoDependency)
  | [] => Except.ok []
  | d :: rest =>
    match synthDependency parseReqD parsePlatform d with
    | Except.error e => Except.error e
    | Except.ok out =>
      match synthDepList parseReqD parsePlatform rest with
      | Except.error e => Except.error e
      | Except.ok outs => Except.ok (out :: outs)

/-- `synth_dependencies` (synth_workspace.rs:118-152). -/
def synthDependencies (parseReqD parsePlatform : String → Option String)
    (version : VersionRecord) : Except String (List CargoDependency) :=
  synthDepList parseReqD parsePlatform version.deps

/-- `synth_rust_version` (synth_workspace.rs:184-194): parse the
minimum-supported-rust-version string when present, propagating a parse
failure. -/
def synthRustVersion (parseRust : String → Option String)
    (version : VersionRecord) : Except String (Option String) :=
  match version.rust_version with
  | none => Except.ok none
  | some s =>
    match parseRust s with
    | none => Except.error s
    | some rv => Except.ok (some rv)

/-- `cargo::core::manifest::ManifestMetadata` as filled in by
`synth_manifest_metadata` (synth_workspace.rs:196-216). -/
structure ManifestMetadataModel where
  authors : List String
  keywords : List String
  categories : List String
  license : Option String
  license_file : Option String
  description : Option String
  readme : Option String
  homepage : Option String
  repository : Option String
  documentation : Option String
  links : Option String
  rust_version : Option String
deriving DecidableEq

/-- `synth_manifest_metadata` (synth_workspace.rs:196-216): every field is
`Default::default()` except the rust-version constraint. -/
def synthManifestMetadata (parseRust : String → Option String)
    (version : VersionRecord) : Except String ManifestMetadataModel :=
  match synthRustVersion parseRust version with
  | Except.error e => Except.error e
  | Except.ok rv =>
    Except.ok ⟨[], [], [], none, none, none, none, none, none, none,
      none, rv⟩

/-- `cargo::core::Summary` as built by `synth_summary`
(synth_workspace.rs:84-96): identity (name, version string, fixed
crates-io source), dependency list, feature map, links, rust version. -/
structure SummaryModel where
  name : String
  vers : String
  source : String
  deps : List CargoDependency
  features : List (String × List String)
  links : Option String
  rust_version : Option String
deriving DecidableEq

/-- `synth_summary` (synth_workspace.rs:84-96); the source identity is the
fixed crates-io registry source (synth_workspace.rs:110-116). -/
def synthSummary (parseReqD parsePlatform parseRust : String → Option String)
    (crate_name : String) (version : VersionRecord) :
    Except String SummaryModel :=
  match synthDependencies parseReqD parsePlatform version with
  | Except.error e => Except.error e
  | Except.ok deps =>
    match synthRustVersion parseRust version with
    | Except.error e => Except.error e
    | Except.ok rv =>
      Except.ok ⟨crate_name, version.vers, "registry+crates-io", deps,
        version.features, version.links, rv⟩

/-- The manifest fields relevant to resolution, as assembled by
`synth_manifest` (synth_workspace.rs:48-82): the summary, the metadata
block and the manifest-level rust version; everything else is
`Default::default()`. -/
structure ManifestModel where
  summary : SummaryModel
  metadata : ManifestMetadataModel
  rust_version : Option String
deriving DecidableEq

/-- `synth_manifest` (synth_workspace.rs:48-82): argument evaluation order
is summary (line 58), metadata (line 65), rust version (line 73), each
propagating its failure attributably for this one package-version. -/
def synthManifest (parseReqD parsePlatform parseRust : String → Option String)
    (crate_name : String) (version : VersionRecord) :
    Except String ManifestModel :=
  match synthSummary parseReqD parsePlatform parseRust crate_name version with
  | Except.error e => Except.error e
  | Except.ok summary =>
    match synthManifestMetadata parseRust version with
    | Except.error e => Except.error e
    | Except.ok metadata =>
      match synthRustVersion parseRust version with
      | Except.error e => Except.error e
      | Except.ok rv => Except.ok ⟨summary, metadata, rv⟩

/-! Concrete instances used by the claim theorems and witnesses. -/

/-- A dependency-free registry record with the given version string and
yank flag. -/
def mkRecord (v : String) (y : Bool) : VersionRecord := ⟨v, [], [], y, none, none⟩

/-- A diagnostic matching both classifier patterns. -/
def yankedDiag : String :=
  "error: failed to select a version for the requirement p = 1.0.0 because version 1.0.0 of p is yanked"

/-- A diagnostic matching no classifier pattern (the cyclic-dependency
message shape). -/
def cyclicDiag : String := "cyclic package dependency: package p v1.0.0 depends on itself"

/-- A Resolver whose every resolution fails with an unclassifiable
diagnostic. -/
def cyclicResolver : Resolver := fun _ => Except.error cyclicDiag

/-- Caret-requirement semantics for a `^MAJ.MIN` requirement with
MAJ >= 1: at least MAJ.MIN.0 and below (MAJ+1).0.0. -/
def caretReq (ma mi : Nat) : SemVer → Bool := fun v =>
  decide ((⟨ma, mi, 0⟩ : SemVer) ≤ v) && decide (v < (⟨ma + 1, 0, 0⟩ : SemVer))

/-- A requirement parser understanding exactly the caret requirement of the
spec test case. -/
def demoReqParser : ReqParser := fun s =>
  if s = "^1.0" then some (caretReq 1 0) else none

/-- Dependent record of spec test 3: A@1.0.0 with one non-dev dependency
on B under requirement caret 1.0. -/
def depOnB : DependencySpec :=
  ⟨"B", "^1.0", DepKindSpec.Normal, false, true, "B", [], none⟩

/-- The record for A@1.0.0. -/
def recordA : VersionRecord := ⟨"1.0.0", [depOnB], [], false, none, none⟩

/-- Index of spec test 3: A@1.0.0 depends on B caret 1.0; B has versions
1.0.0, 1.2.0 (yanked), 1.5.0. -/
def demoIndexAB : PackageIndex :=
  [("A", [(⟨1, 0, 0⟩, recordA)]),
   ("B", [(⟨1, 0, 0⟩, mkRecord "1.0.0" false),
          (⟨1, 2, 0⟩, mkRecord "1.2.0" true),
          (⟨1, 5, 0⟩, mkRecord "1.5.0" false)])]

/-- Reverse edges of the diamond graph of spec test 6: B and C are
dependents of A at 1.0.0, D is a dependent of both B and C. -/
def diamondEdges : List RevEdge :=
  [(("A", ⟨1, 0, 0⟩), ("B", ⟨1, 0, 0⟩)),
   (("A", ⟨1, 0, 0⟩), ("C", ⟨1, 0, 0⟩)),
   (("B", ⟨1, 0, 0⟩), ("D", ⟨1, 0, 0⟩)),
   (("C", ⟨1, 0, 0⟩), ("D", ⟨1, 0, 0⟩))]

/-- Index for the diamond walk: only the walk target A needs versions. -/
def diamondIndex : PackageIndex := [("A", [(⟨1, 0, 0⟩, mkRecord "1.0.0" false)])]

/-- Reverse edges where two distinct versions of the same dependent
package E are both direct dependents of the target T@1.0.0. -/
def twoVersionEdges : List RevEdge :=
  [(("T", ⟨1, 0, 0⟩), ("E", ⟨1, 0, 0⟩)),
   (("T", ⟨1, 0, 0⟩), ("E", ⟨2, 0, 0⟩))]

/-- Index for the two-version walk. -/
def twoVersionIndex : PackageIndex := [("T", [(⟨1, 0, 0⟩, mkRecord "1.0.0" false)])]

/-- The orchestrator state at process start of a run: an on-disk cache, an
empty error list, no resolver invocations yet. -/
def freshState (cache : List ((String × SemVer) × Lockfile)) : OrchState :=
  ⟨cache, [], []⟩

/-- A Resolver whose every resolution succeeds. -/
def okResolver : Resolver := fun _ => Except.ok 0

/-- A one-package index whose single package has one non-yanked version. -/
def demoIndexP : PackageIndex := [("P", [(⟨1, 0, 0⟩, mkRecord "1.0.0" false)])]

/-- A one-package index whose single package has only yanked versions. -/
def allYankedIndex : PackageIndex := [("Q", [(⟨1, 0, 0⟩, mkRecord "1.0.0" true)])]

/-- An external parser accepting every input unchanged. -/
def idParser : String → Option String := fun s => some s

/-- An external parser rejecting every input. -/
def rejectParser : String → Option String := fun _ => none

/-- A dependency entry exercising every carried-through field: Build kind,
optional, no default features, a rename, one feature, a platform
predicate. -/
def demoSynthDep : DependencySpec :=
  ⟨"dep", "^1", DepKindSpec.Build, true, false, "depalias", ["f1"],
   some "cfg(windows)"⟩

/-- A registry record exercising every synthesised manifest field. -/
def demoSynthRecord : VersionRecord :=
  ⟨"1.2.3", [demoSynthDep], [("feat", ["dep/f1"])], false,
   some "linkname", some "1.60"⟩

/-- All ways of inserting one element into a list (one result per
position).  Used to enumerate edge insertion orders. -/
def insertsOf {α : Type} (x : α) : List α → List (List α)
  | [] => [[x]]
  | y :: ys => (x :: y :: ys) :: (insertsOf x ys).map (fun l => y :: l)

/-- Structural enumeration of all permutations of a list (kernel
evaluable, unlike the library permutations function). -/
def perms {α : Type} : List α → List (List α)
  | [] => [[]]
  | x :: xs => (perms xs).flatMap (insertsOf x)

/-! Claim theorems. -/

/-- C1, counterexample: the claim says text containing
"cyclic package dependency" classifies as CyclicDependency; on the code
(`ResolveError::from_str`, main.rs:414-433, with `ResolveErrorKind`,
main.rs:410-412) such text matches no pattern and classifies as none —
indeed no CyclicDependency kind exists in the taxonomy. -/
theorem c1_classifier_counterexample : classify cyclicDiag = none := by decide

/-- C1 (amended): classification is deterministic and total; text
containing both "failed to select a version for the requirement" and
"is yanked" classifies as DependencyFullyYanked; any text not containing
both patterns — including text containing "cyclic package dependency" —
classifies as none. -/
theorem c1_classifier_amended (s : String) :
    (containsSub s "failed to select a version for the requirement" = true →
      containsSub s "is yanked" = true →
      classify s = some ResolveErrorKind.DependencyFullyYanked) ∧
    ((containsSub s "failed to select a version for the requirement" &&
        containsSub s "is yanked") = false →
      classify s = none) := by
  constructor
  · intro h1 h2
    simp [classify, ResolveError.from_str, h1, h2]
  · intro h
    simp [classify, ResolveError.from_str, h]

/-- Witness for C1: a concrete diagnostic with both patterns classifies as
DependencyFullyYanked, and the concrete cyclic-dependency diagnostic
classifies as none. -/
theorem c1_classifier_amended_witness :
    classify yankedDiag = some ResolveErrorKind.DependencyFullyYanked ∧
    classify cyclicDiag = none :=
  ⟨(c1_classifier_amended yankedDiag).1 (by decide) (by decide),
   (c1_classifier_amended cyclicDiag).2 (by decide)⟩

/-- C2, code versus spec at the failing input: for a work item whose
resolution fails with the unclassifiable diagnostic `cyclicDiag`, the
value of the `GLOBAL_CONTEXT.with` closure is the propagated error
(second conjunct) — but that value is discarded at main.rs:190, so the
batch completes with `Ok`, records no failure, and the item is silently
dropped after one resolver invocation (first conjunct), instead of
terminating the run fatally as the spec requires. -/
theorem c2_unclassifiable_dropped :
    resolveBatch cyclicResolver (freshState []) [("foo", ⟨1, 0, 0⟩)] =
      Except.ok ⟨[], [], [("foo", ⟨1, 0, 0⟩)]⟩ ∧
    withResult cyclicResolver (freshState []) ("foo", ⟨1, 0, 0⟩) =
      Except.error cyclicDiag := ⟨rfl, rfl⟩

theorem alookup_ainsert {α β : Type} [DecidableEq α] (k k0 : α) (v : β)
    (l : List (α × β)) :
    alookup (ainsert k0 v l) k = if k = k0 then some v else alookup l k := by
  induction l with
  | nil => simp [ainsert, alookup]
  | cons p rest ih =>
    obtain ⟨k1, v1⟩ := p
    by_cases h0 : k0 = k1
    · subst h0
      by_cases hk : k = k0 <;> simp [ainsert, alookup, hk]
    · by_cases hk : k = k1
      · subst hk
        have : ¬ k = k0 := fun h => h0 (h.symm)
        simp [ainsert, alookup, h0, this]
      · simp [ainsert, alookup, h0, hk, ih]

theorem processItem_cache_hit {resolve : Resolver} {st : OrchState}
    {item : String × SemVer} {l : Lockfile}
    (h : alookup st.cache item = some l) :
    processItem resolve st item = st := by
  simp [processItem, h]

theorem processItem_cache_mono {resolve : Resolver} {st : OrchState}
    {item k : String × SemVer}
    (h : (alookup st.cache k).isSome = true) :
    (alookup (processItem resolve st item).cache k).isSome = true := by
  cases hc : alookup st.cache item with
  | some l => simp [processItem, hc, h]
  | none =>
    cases hr : resolve item with
    | ok lock =>
      simp only [processItem, hc, hr]
      rw [alookup_ainsert]
      by_cases hk : k = item <;> simp [hk, h]
    | error diag =>
      cases hf : ResolveError.from_str item.1 item.2 diag with
      | ok re => simp [processItem, hc, hr, hf, h]
      | error m => simp [processItem, hc, hr, hf, h]

theorem processItem_success_cached {resolve : Resolver} {st : OrchState}
    {item : String × SemVer}
    (h : (resolve item).isOk = true) :
    (alookup (processItem resolve st item).cache item).isSome = true := by
  cases hc : alookup st.cache item with
  | some l => simp [processItem, hc]
  | none =>
    cases hr : resolve item with
    | ok lock =>
      simp only [processItem, hc, hr]
      rw [alookup_ainsert]
      simp
    | error diag => rw [hr] at h; simp [Except.isOk, Except.toBool] at h

theorem processItem_invoked {resolve : Resolver} {st : OrchState}
    {item k : String × SemVer}
    (h1 : k ∉ st.invoked) (h2 : k ≠ item) :
    k ∉ (processItem resolve st item).invoked := by
  cases hc : alookup st.cache item with
  | some l => simp [processItem, hc]; exact h1
  | none =>
    cases hr : resolve item with
    | ok lock => simp [processItem, hc, hr, h1, h2]
    | error diag =>
      cases hf : ResolveError.from_str item.1 item.2 diag with
      | ok re => simp [processItem, hc, hr, hf, h1, h2]
      | error m => simp [processItem, hc, hr, hf, h1, h2]

theorem processItem_errors {resolve : Resolver} {st : OrchState}
    {item : String × SemVer} :
    ∀ e ∈ (processItem resolve st item).errors,
      e ∈ st.errors ∨ (e.crate_name = item.1 ∧ e.version = item.2) := by
  intro e he
  cases hc : alookup st.cache item with
  | some l => rw [processItem_cache_hit hc] at he; exact Or.inl he
  | none =>
    cases hr : resolve item with
    | ok lock =>
      simp only [processItem, hc, hr] at he
      exact Or.inl he
    | error diag =>
      cases hf : ResolveError.from_str item.1 item.2 diag with
      | ok re =>
        simp only [processItem, hc, hr, hf] at he
        rcases List.mem_append.mp he with h | h
        · exact Or.inl h
        · have : e = re := by simpa using h
          subst this
          unfold ResolveError.from_str at hf
          split at hf
          · injection hf with hre
            subst hre
            exact Or.inr ⟨rfl, rfl⟩
          · cases hf
      | error m =>
        simp only [processItem, hc, hr, hf] at he
        exact Or.inl he

theorem resolveBatch_cache_mono {resolve : Resolver} :
    ∀ {items : List (String × SemVer)} {st st' : OrchState}
      {k : String × SemVer},
      resolveBatch resolve st items = Except.ok st' →
      (alookup st.cache k).isSome = true →
      (alookup st'.cache k).isSome = true := by
  intro items
  induction items with
  | nil =>
    intro st st' k h hk
    simp only [resolveBatch] at h
    injection h with h
    subst h
    exact hk
  | cons item rest ih =>
    intro st st' k h hk
    simp only [resolveBatch] at h
    exact ih h (processItem_cache_mono hk)

theorem resolveBatch_success_cached {resolve : Resolver} :
    ∀ {items : List (String × SemVer)} {st st' : OrchState}
      {item : String × SemVer},
      resolveBatch resolve st items = Except.ok st' →
      item ∈ items →
      (resolve item).isOk = true →
      (alookup st'.cache item).isSome = true := by
  intro items
  induction items with
  | nil => intro st st' item _ hmem; cases hmem
  | cons it rest ih =>
    intro st st' item h hmem hok
    simp only [resolveBatch] at h
    rcases List.mem_cons.mp hmem with heq | hmem
    · subst heq
      exact resolveBatch_cache_mono h (processItem_success_cached hok)
    · exact ih h hmem hok

theorem resolveBatch_no_invoke {resolve : Resolver} :
    ∀ {items : List (String × SemVer)} {st st' : OrchState}
      {k : String × SemVer},
      resolveBatch resolve st items = Except.ok st' →
      (alookup st.cache k).isSome = true →
      k ∉ st.invoked →
      k ∉ st'.invoked := by
  intro items
  induction items with
  | nil =>
    intro st st' k h hk hni
    simp only [resolveBatch] at h
    injection h with h
    subst h
    exact hni
  | cons item rest ih =>
    intro st st' k h hk hni
    simp only [resolveBatch] at h
    by_cases hke : k = item
    · subst hke
      obtain ⟨l, hl⟩ := Option.isSome_iff_exists.mp hk
      rw [processItem_cache_hit hl] at h
      exact ih h hk hni
    · exact ih h (processItem_cache_mono hk) (processItem_invoked hni hke)

theorem resolveBatch_errors {resolve : Resolver} :
    ∀ {items : List (String × SemVer)} {st st' : OrchState},
      resolveBatch resolve st items = Except.ok st' →
      ∀ e ∈ st'.errors,
        e ∈ st.errors ∨ ∃ it ∈ items, e.crate_name = it.1 := by
  intro items
  induction items with
  | nil =>
    intro st st' h e he
    simp only [resolveBatch] at h
    injection h with h
    subst h
    exact Or.inl he
  | cons item rest ih =>
    intro st st' h e he
    simp only [resolveBatch] at h
    rcases ih h e he with h1 | ⟨it, hit, hname⟩
    · rcases processItem_errors e h1 with h2 | ⟨h2, _⟩
      · exact Or.inl h2
      · exact Or.inr ⟨item, List.mem_cons_self item rest, h2⟩
    · exact Or.inr ⟨it, List.mem_cons_of_mem item hit, hname⟩

/-- C4: cache idempotence of the orchestrator (main.rs:146-183).  A cache
hit is reused without invoking the Resolver; after a first full pass,
every work item that succeeded (by hit or by successful resolution) has a
cache entry; a second full pass over the unchanged index starting from
that cache never invokes the Resolver for such an item. -/
theorem c4_cache_idempotence (resolve : Resolver)
    (cache0 : List ((String × SemVer) × Lockfile)) (index : PackageIndex)
    (item : String × SemVer) (st1 : OrchState)
    (hmem : item ∈ workItems index)
    (hsucc : (alookup cache0 item).isSome = true ∨ (resolve item).isOk = true)
    (h1 : resolveAll resolve (freshState cache0) index = Except.ok st1) :
    (∀ (st : OrchState) (l : Lockfile), alookup st.cache item = some l →
      processItem resolve st item = st) ∧
    (alookup st1.cache item).isSome = true ∧
    (∀ st2 : OrchState,
      resolveAll resolve (freshState st1.cache) index = Except.ok st2 →
      item ∉ st2.invoked) := by
  unfold resolveAll at h1
  have hcached : (alookup st1.cache item).isSome = true := by
    rcases hsucc with hs | hs
    · exact resolveBatch_cache_mono h1 hs
    · exact resolveBatch_success_cached h1 hmem hs
  refine ⟨fun st l h => processItem_cache_hit h, hcached, ?_⟩
  intro st2 h2
  unfold resolveAll at h2
  exact resolveBatch_no_invoke h2 hcached (by simp [freshState])

/-- Witness for C4 at a concrete one-package index with an always-ok
Resolver: the first run caches the lockfile and a second run performs no
resolver invocation for the item. -/
theorem c4_cache_idempotence_witness :
    (∀ (st : OrchState) (l : Lockfile),
      alookup st.cache ("P", (⟨1, 0, 0⟩ : SemVer)) = some l →
      processItem okResolver st ("P", ⟨1, 0, 0⟩) = st) ∧
    (alookup (⟨[(("P", ⟨1, 0, 0⟩), 0)], [], [("P", ⟨1, 0, 0⟩)]⟩ :
        OrchState).cache ("P", ⟨1, 0, 0⟩)).isSome = true ∧
    (∀ st2 : OrchState,
      resolveAll okResolver
          (freshState [(("P", (⟨1, 0, 0⟩ : SemVer)), 0)]) demoIndexP =
        Except.ok st2 →
      ("P", (⟨1, 0, 0⟩ : SemVer)) ∉ st2.invoked) :=
  c4_cache_idempotence okResolver [] demoIndexP ("P", ⟨1, 0, 0⟩)
    ⟨[(("P", ⟨1, 0, 0⟩), 0)], [], [("P", ⟨1, 0, 0⟩)]⟩
    (by decide) (Or.inr rfl) rfl

theorem find?_max_desc (pred : SemVer × VersionRecord → Bool) :
    ∀ (l : VersionMap) (a : SemVer × VersionRecord),
      List.Pairwise (fun x y => y.1 < x.1) l →
      l.find? pred = some a →
      pred a = true ∧ a ∈ l ∧ ∀ b ∈ l, pred b = true → b.1 ≤ a.1 := by
  intro l
  induction l with
  | nil => intro a _ hf; simp at hf
  | cons x xs ih =>
    intro a hp hf
    rcases List.pairwise_cons.mp hp with ⟨hx, hp2⟩
    by_cases hpx : pred x = true
    · rw [List.find?_cons_of_pos _ hpx] at hf
      injection hf with hf
      subst hf
      refine ⟨hpx, List.mem_cons_self _ _, ?_⟩
      intro b hb _
      rcases List.mem_cons.mp hb with hb | hb
      · subst hb; exact SemVer.le_refl _
      · exact SemVer.le_of_lt (hx b hb)
    · rw [List.find?_cons_of_neg _ hpx] at hf
      obtain ⟨h1, h2, h3⟩ := ih a hp2 hf
      refine ⟨h1, List.mem_cons_of_mem x h2, ?_⟩
      intro b hb hbp
      rcases List.mem_cons.mp hb with hb | hb
      · subst hb; exact absurd hbp hpx
      · exact h3 b hb hbp

theorem alist_nodup_eq {α β : Type} [DecidableEq α] :
    ∀ (l : List (α × β)) (k : α) (v w : β),
      (l.map Prod.fst).Nodup → (k, v) ∈ l → (k, w) ∈ l → v = w := by
  intro l
  induction l with
  | nil => intro k v w _ hv; cases hv
  | cons x xs ih =>
    intro k v w hnd hv hw
    rcases List.nodup_cons.mp hnd with ⟨hx, hnd2⟩
    rcases List.mem_cons.mp hv with hv | hv <;>
      rcases List.mem_cons.mp hw with hw | hw
    · have h2 := congrArg Prod.snd (hv.trans hw.symm)
      simpa using h2
    · exfalso
      apply hx
      rw [← hv]
      exact List.mem_map.mpr ⟨(k, w), hw, rfl⟩
    · exfalso
      apply hx
      rw [← hw]
      exact List.mem_map.mpr ⟨(k, v), hv, rfl⟩
    · exact ih k v w hnd2 hv hw

theorem workItems_mem {index : PackageIndex} {it : String × SemVer}
    (h : it ∈ workItems index) :
    ∃ p ∈ index, ∃ q, latestNonYanked p.2 = some q ∧ it = (p.1, q.1) := by
  unfold workItems at h
  rcases List.mem_filterMap.mp h with ⟨p, hp, hf⟩
  rcases Option.map_eq_some.mp hf with ⟨q, hq, hit⟩
  exact ⟨p, hp, q, hq, hit.symm⟩

/-- C5: `latest_non_yanked` (main.rs:127-130).  Concretely, on versions
[1.0.0 (yanked), 1.1.0, 2.0.0] it returns 2.0.0; on an all-yanked
sequence it returns none; in general, on an ascending version sequence it
returns a non-yanked version above which every version is yanked (i.e.
the first non-yanked version scanning from highest to lowest); and an
all-yanked package is skipped by the orchestrator: it contributes no work
item and no entry of the failure list ever carries its name. -/
theorem c5_latest_non_yanked :
    (latestNonYanked
        [(⟨1, 0, 0⟩, mkRecord "1.0.0" true), (⟨1, 1, 0⟩, mkRecord "1.1.0" false),
         (⟨2, 0, 0⟩, mkRecord "2.0.0" false)] =
      some (⟨2, 0, 0⟩, mkRecord "2.0.0" false)) ∧
    (∀ versions : VersionMap, (∀ p ∈ versions, p.2.yanked = true) →
      latestNonYanked versions = none) ∧
    (∀ (versions : VersionMap) (s : SemVer) (r : VersionRecord),
      List.Pairwise (fun x y => x.1 < y.1) versions →
      latestNonYanked versions = some (s, r) →
      r.yanked = false ∧ (s, r) ∈ versions ∧
        ∀ q ∈ versions, s < q.1 → q.2.yanked = true) ∧
    (∀ (index : PackageIndex) (name : String) (versions : VersionMap),
      (index.map Prod.fst).Nodup →
      (name, versions) ∈ index →
      (∀ p ∈ versions, p.2.yanked = true) →
      (∀ it ∈ workItems index, it.1 ≠ name) ∧
      (∀ (resolve : Resolver) (st st' : OrchState),
        resolveBatch resolve st (workItems index) = Except.ok st' →
        ∀ e ∈ st'.errors, e ∈ st.errors ∨ e.crate_name ≠ name)) := by
  have hnone : ∀ versions : VersionMap, (∀ p ∈ versions, p.2.yanked = true) →
      latestNonYanked versions = none := by
    intro versions h
    unfold latestNonYanked
    rw [List.find?_eq_none]
    intro p hp
    have := h p (List.mem_reverse.mp hp)
    simp [this]
  refine ⟨by decide, hnone, ?_, ?_⟩
  · intro versions s r hsort hf
    unfold latestNonYanked at hf
    have hdesc : List.Pairwise (fun x y => y.1 < x.1) versions.reverse := by
      rw [List.pairwise_reverse]
      exact hsort
    obtain ⟨h1, h2, h3⟩ := find?_max_desc _ versions.reverse (s, r) hdesc hf
    refine ⟨by simpa using h1, List.mem_reverse.mp h2, ?_⟩
    intro q hq hlt
    by_contra hy
    have hq2 : q.2.yanked = false := by
      cases hqy : q.2.yanked
      · rfl
      · exact absurd hqy hy
    have : q.1 ≤ s := h3 q (List.mem_reverse.mpr hq) (by simp [hq2])
    rcases this with h | h
    · exact SemVer.lt_asymm hlt h
    · rw [h] at hlt; exact SemVer.lt_irrefl _ hlt
  · intro index name versions hnd hmem hyank
    have hnotin : ∀ it ∈ workItems index, it.1 ≠ name := by
      intro it hit heq
      obtain ⟨p, hp, q, hq, hform⟩ := workItems_mem hit
      have hpname : p.1 = name := by rw [hform] at heq; exact heq
      have : p.2 = versions := by
        apply alist_nodup_eq index name p.2 versions hnd
        · rw [← hpname]; exact hp
        · exact hmem
      rw [this, hnone versions hyank] at hq
      cases hq
    refine ⟨hnotin, ?_⟩
    intro resolve st st' hb e he
    rcases resolveBatch_errors hb e he with h | ⟨it, hit, hname⟩
    · exact Or.inl h
    · exact Or.inr (by rw [hname]; exact hnotin it hit)

/-- Witness for C5: the all-yanked single-package index contributes no
work item, and a batch over it starting from an empty error list records
no error naming the package. -/
theorem c5_latest_non_yanked_witness :
    (∀ it ∈ workItems allYankedIndex, it.1 ≠ "Q") ∧
    (∀ (resolve : Resolver) (st st' : OrchState),
      resolveBatch resolve st (workItems allYankedIndex) = Except.ok st' →
      ∀ e ∈ st'.errors, e ∈ st.errors ∨ e.crate_name ≠ "Q") :=
  (c5_latest_non_yanked.2.2.2 allYankedIndex "Q"
    [(⟨1, 0, 0⟩, mkRecord "1.0.0" true)] (by decide) (by decide) (by decide))

theorem collectLines_ok (lines : List RawLine)
    (h : RawLine.malformed ∉ lines) :
    collectLines lines = Except.ok (lines.filterMap
      (fun l => match l with
        | RawLine.malformed => none
        | RawLine.record v => some v)) := by
  induction lines with
  | nil => simp [collectLines]
  | cons l rest ih =>
    cases l with
    | malformed => exact absurd (List.mem_cons_self _ _) h
    | record v =>
      have hrest : RawLine.malformed ∉ rest :=
        fun hm => h (List.mem_cons_of_mem _ hm)
      simp [collectLines, ih hrest, List.filterMap]

theorem collectLines_error (lines : List RawLine)
    (h : RawLine.malformed ∈ lines) :
    ∃ e, collectLines lines = Except.error e := by
  induction lines with
  | nil => cases h
  | cons l rest ih =>
    cases l with
    | malformed => exact ⟨_, rfl⟩
    | record v =>
      rcases List.mem_cons.mp h with h1 | h1
      · cases h1
      · obtain ⟨e, he⟩ := ih h1
        exact ⟨e, by simp [collectLines, he]⟩

theorem parseVersions_ok (vs : List VersionRecord)
    (h : ∀ v ∈ vs, (parseSemVer v.vers).isSome = true) :
    ∃ kvs, parseVersions vs = Except.ok kvs ∧
      ∀ v ∈ vs, ∃ sv, parseSemVer v.vers = some sv ∧ (sv, v) ∈ kvs := by
  induction vs with
  | nil => exact ⟨[], rfl, by simp⟩
  | cons v rest ih =>
    obtain ⟨sv, hsv⟩ := Option.isSome_iff_exists.mp
      (h v (List.mem_cons_self _ _))
    obtain ⟨kvs, hk, hmem⟩ := ih (fun w hw => h w (List.mem_cons_of_mem _ hw))
    refine ⟨(sv, v) :: kvs, by simp [parseVersions, hsv, hk], ?_⟩
    intro w hw
    rcases List.mem_cons.mp hw with h1 | h1
    · subst h1; exact ⟨sv, hsv, List.mem_cons_self _ _⟩
    · obtain ⟨sw, hsw, hmw⟩ := hmem w h1
      exact ⟨sw, hsw, List.mem_cons_of_mem _ hmw⟩

theorem parseVersions_error (vs : List VersionRecord)
    (h : ∃ v ∈ vs, parseSemVer v.vers = none) :
    ∃ e, parseVersions vs = Except.error e := by
  induction vs with
  | nil => simp at h
  | cons v rest ih =>
    cases hv : parseSemVer v.vers with
    | none => exact ⟨v.vers, by simp [parseVersions, hv]⟩
    | some sv =>
      obtain ⟨w, hw, hwn⟩ := h
      rcases List.mem_cons.mp hw with h1 | h1
      · subst h1; rw [hv] at hwn; cases hwn
      · obtain ⟨e, he⟩ := ih ⟨w, h1, hwn⟩
        exact ⟨e, by simp [parseVersions, hv, he]⟩

theorem btreeInsert_mem (k : SemVer) (v : VersionRecord) :
    ∀ (l : VersionMap) (x : SemVer × VersionRecord),
      x ∈ btreeInsert k v l → x = (k, v) ∨ x ∈ l := by
  intro l
  induction l with
  | nil => intro x hx; simpa [btreeInsert] using hx
  | cons p rest ih =>
    intro x hx
    obtain ⟨k0, v0⟩ := p
    unfold btreeInsert at hx
    by_cases h1 : k < k0
    · rw [if_pos h1] at hx
      rcases List.mem_cons.mp hx with h | h
      · exact Or.inl h
      · exact Or.inr h
    · rw [if_neg h1] at hx
      by_cases h2 : k = k0
      · rw [if_pos h2] at hx
        rcases List.mem_cons.mp hx with h | h
        · exact Or.inl h
        · exact Or.inr (List.mem_cons_of_mem _ h)
      · rw [if_neg h2] at hx
        rcases List.mem_cons.mp hx with h | h
        · exact Or.inr (h ▸ List.mem_cons_self _ _)
        · rcases ih x h with h3 | h3
          · exact Or.inl h3
          · exact Or.inr (List.mem_cons_of_mem _ h3)

theorem btreeInsert_pairwise (k : SemVer) (v : VersionRecord) :
    ∀ (l : VersionMap),
      List.Pairwise (fun a b => a.1 < b.1) l →
      List.Pairwise (fun a b => a.1 < b.1) (btreeInsert k v l) := by
  intro l
  induction l with
  | nil => intro _; simp [btreeInsert]
  | cons p rest ih =>
    intro hp
    obtain ⟨k0, v0⟩ := p
    rcases List.pairwise_cons.mp hp with ⟨hhead, htail⟩
    unfold btreeInsert
    by_cases h1 : k < k0
    · rw [if_pos h1]
      refine List.pairwise_cons.mpr ⟨?_, hp⟩
      intro b hb
      rcases List.mem_cons.mp hb with h | h
      · rw [h]; exact h1
      · exact SemVer.lt_trans h1 (hhead b h)
    · rw [if_neg h1]
      by_cases h2 : k = k0
      · rw [if_pos h2]
        refine List.pairwise_cons.mpr ⟨?_, htail⟩
        intro b hb
        rw [h2]
        exact hhead b hb
      · rw [if_neg h2]
        have hk0k : k0 < k := by
          rcases SemVer.lt_trichotomy k k0 with h | h | h
          · exact absurd h h1
          · exact absurd h h2
          · exact h
        refine List.pairwise_cons.mpr ⟨?_, ih htail⟩
        intro b hb
        rcases btreeInsert_mem k v rest b hb with h | h
        · rw [h]; exact hk0k
        · exact hhead b h

theorem btreeOfList_pairwise (xs : List (SemVer × VersionRecord)) :
    List.Pairwise (fun a b => a.1 < b.1) (btreeOfList xs) := by
  have : ∀ (ys : List (SemVer × VersionRecord)) (acc : VersionMap),
      List.Pairwise (fun a b => a.1 < b.1) acc →
      List.Pairwise (fun a b => a.1 < b.1)
        (ys.foldl (fun acc kv => btreeInsert kv.1 kv.2 acc) acc) := by
    intro ys
    induction ys with
    | nil => intro acc h; exact h
    | cons y rest ih =>
      intro acc h
      exact ih _ (btreeInsert_pairwise y.1 y.2 acc h)
  exact this xs [] (by simp)

theorem btreeInsert_key_stays (k : SemVer) (v : VersionRecord) :
    ∀ (l : VersionMap) (k0 : SemVer),
      (k0 = k ∨ ∃ w, (k0, w) ∈ l) →
      ∃ w, (k0, w) ∈ btreeInsert k v l := by
  intro l
  induction l with
  | nil =>
    intro k0 h
    rcases h with h | ⟨w, hw⟩
    · exact ⟨v, by simp [btreeInsert, h]⟩
    · cases hw
  | cons p rest ih =>
    intro k0 h
    obtain ⟨k1, v1⟩ := p
    unfold btreeInsert
    by_cases h1 : k < k1
    · rw [if_pos h1]
      rcases h with h | ⟨w, hw⟩
      · exact ⟨v, by simp [h]⟩
      · exact ⟨w, List.mem_cons_of_mem _ hw⟩
    · rw [if_neg h1]
      by_cases h2 : k = k1
      · rw [if_pos h2]
        rcases h with h | ⟨w, hw⟩
        · exact ⟨v, by simp [h]⟩
        · rcases List.mem_cons.mp hw with h3 | h3
          · have hk01 : k0 = k1 := by
              have := congrArg Prod.fst h3
              simpa using this
            exact ⟨v, by simp [hk01, h2]⟩
          · exact ⟨w, List.mem_cons_of_mem _ h3⟩
      · rw [if_neg h2]
        rcases h with h | ⟨w, hw⟩
        · obtain ⟨w, hw⟩ := ih k0 (Or.inl h)
          exact ⟨w, List.mem_cons_of_mem _ hw⟩
        · rcases List.mem_cons.mp hw with h3 | h3
          · have hk01 : k0 = k1 := by
              have := congrArg Prod.fst h3
              simpa using this
            exact ⟨v1, by rw [hk01]; exact List.mem_cons_self _ _⟩
          · obtain ⟨w2, hw2⟩ := ih k0 (Or.inr ⟨w, h3⟩)
            exact ⟨w2, List.mem_cons_of_mem _ hw2⟩

theorem btreeOfList_key_mem (xs : List (SemVer × VersionRecord))
    (sv : SemVer) (v : VersionRecord) (h : (sv, v) ∈ xs) :
    ∃ w, (sv, w) ∈ btreeOfList xs := by
  have : ∀ (ys : List (SemVer × VersionRecord)) (acc : VersionMap),
      ((∃ u, (sv, u) ∈ ys) ∨ ∃ w, (sv, w) ∈ acc) →
      ∃ w, (sv, w) ∈ ys.foldl (fun acc kv => btreeInsert kv.1 kv.2 acc) acc := by
    intro ys
    induction ys with
    | nil =>
      intro acc h
      rcases h with ⟨u, hu⟩ | h
      · cases hu
      · exact h
    | cons y rest ih =>
      intro acc h
      rcases h with ⟨u, hu⟩ | ⟨w, hw⟩
      · rcases List.mem_cons.mp hu with h1 | h1
        · apply ih
          right
          apply btreeInsert_key_stays
          left
          have := congrArg Prod.fst h1
          simpa using this
        · exact ih _ (Or.inl ⟨u, h1⟩)
      · exact ih _ (Or.inr (btreeInsert_key_stays y.1 y.2 acc sv
          (Or.inr ⟨w, hw⟩)))
  exact this xs [] (Or.inl ⟨v, h⟩)

theorem mem_recordsOf (lines : List RawLine) (v : VersionRecord) :
    v ∈ lines.filterMap (fun l => match l with
      | RawLine.malformed => none
      | RawLine.record w => some w) ↔ RawLine.record v ∈ lines := by
  constructor
  · intro h
    rcases List.mem_filterMap.mp h with ⟨l, hl, hf⟩
    cases l with
    | malformed => cases hf
    | record w =>
      have : w = v := by injection hf
      subst this
      exact hl
  · intro h
    exact List.mem_filterMap.mpr ⟨RawLine.record v, h, rfl⟩

theorem parseFile_ok (file : RegistryFile)
    (h1 : RawLine.malformed ∉ file.lines)
    (h2 : ∀ v : VersionRecord, RawLine.record v ∈ file.lines →
      (parseSemVer v.vers).isSome = true) :
    ∃ vm, parseFile file = Except.ok (file.name, vm) ∧
      ∀ v : VersionRecord, RawLine.record v ∈ file.lines →
        ∃ sv w, parseSemVer v.vers = some sv ∧ (sv, w) ∈ vm := by
  have hc := collectLines_ok file.lines h1
  obtain ⟨kvs, hk, hmem⟩ := parseVersions_ok _
    (fun v hv => h2 v ((mem_recordsOf file.lines v).mp hv))
  refine ⟨btreeOfList kvs, ?_, ?_⟩
  · simp [parseFile, hc, hk]
  · intro v hv
    obtain ⟨sv, hsv, hkv⟩ := hmem v ((mem_recordsOf file.lines v).mpr hv)
    obtain ⟨w, hw⟩ := btreeOfList_key_mem kvs sv v hkv
    exact ⟨sv, w, hsv, hw⟩

theorem parseFile_error (file : RegistryFile)
    (h : RawLine.malformed ∈ file.lines ∨
      ∃ v : VersionRecord, RawLine.record v ∈ file.lines ∧
        parseSemVer v.vers = none) :
    ∃ e, parseFile file = Except.error e := by
  by_cases hm : RawLine.malformed ∈ file.lines
  · obtain ⟨e, he⟩ := collectLines_error file.lines hm
    exact ⟨e, by unfold parseFile; rw [he]⟩
  · rcases h with h | ⟨v, hv, hvn⟩
    · exact absurd h hm
    · have hc := collectLines_ok file.lines hm
      obtain ⟨e, he⟩ := parseVersions_error _
        ⟨v, (mem_recordsOf file.lines v).mpr hv, hvn⟩
      exact ⟨e, by simp [parseFile, hc, he]⟩

theorem parseFile_ok_shape {file : RegistryFile} {p : String × VersionMap}
    (h : parseFile file = Except.ok p) :
    p.1 = file.name ∧ ∃ kvs, p.2 = btreeOfList kvs := by
  unfold parseFile at h
  split at h
  · cases h
  · split at h
    · cases h
    · injection h with h
      rw [← h]
      exact ⟨rfl, _, rfl⟩

theorem parseIndex_ok_mem :
    ∀ {files : List RegistryFile} {idx : PackageIndex},
      parseIndex files = Except.ok idx →
      ∀ p ∈ idx, ∃ f ∈ files, parseFile f = Except.ok p := by
  intro files
  induction files with
  | nil =>
    intro idx h p hp
    simp only [parseIndex] at h
    injection h with h
    subst h
    cases hp
  | cons f rest ih =>
    intro idx h p hp
    simp only [parseIndex] at h
    cases hpf : parseFile f with
    | error e => rw [hpf] at h; cases h
    | ok q =>
      rw [hpf] at h
      cases hpr : parseIndex rest with
      | error e => rw [hpr] at h; cases h
      | ok ps =>
        rw [hpr] at h
        injection h with h
        subst h
        rcases List.mem_cons.mp hp with h1 | h1
        · subst h1
          exact ⟨f, List.mem_cons_self _ _, hpf⟩
        · obtain ⟨g, hg, hgp⟩ := ih hpr p h1
          exact ⟨g, List.mem_cons_of_mem _ hg, hgp⟩

theorem parseIndex_error_of_file :
    ∀ {files : List RegistryFile} {f : RegistryFile} {e : String},
      f ∈ files → parseFile f = Except.error e →
      ∃ e2, parseIndex files = Except.error e2 := by
  intro files
  induction files with
  | nil => intro f e h; cases h
  | cons g rest ih =>
    intro f e hmem hf
    rcases List.mem_cons.mp hmem with h1 | h1
    · subst h1
      exact ⟨e, by simp only [parseIndex]; rw [hf]⟩
    · cases hg : parseFile g with
      | error e2 => exact ⟨e2, by simp only [parseIndex]; rw [hg]⟩
      | ok p =>
        obtain ⟨e2, he2⟩ := ih h1 hf
        exact ⟨e2, by simp only [parseIndex]; rw [hg, he2]⟩

/-- C6: the index load is all-or-nothing (index.rs:56-75).  If any line of
any registry file is malformed JSON or carries an unparsable version
string, `parse_index` returns an error and no partial index; otherwise it
returns one entry per file, keyed by the file name, whose version map
contains every record's parsed version. -/
theorem c6_load_all_or_nothing (files : List RegistryFile) :
    ((∃ f ∈ files, RawLine.malformed ∈ f.lines ∨
        ∃ v : VersionRecord, RawLine.record v ∈ f.lines ∧
          parseSemVer v.vers = none) →
      ∃ e, parseIndex files = Except.error e) ∧
    ((∀ f ∈ files, RawLine.malformed ∉ f.lines ∧
        ∀ v : VersionRecord, RawLine.record v ∈ f.lines →
          (parseSemVer v.vers).isSome = true) →
      ∃ idx, parseIndex files = Except.ok idx ∧
        List.Forall₂ (fun (f : RegistryFile) (p : String × VersionMap) =>
          p.1 = f.name ∧
          ∀ v : VersionRecord, RawLine.record v ∈ f.lines →
            ∃ sv w, parseSemVer v.vers = some sv ∧ (sv, w) ∈ p.2)
          files idx) := by
  constructor
  · intro ⟨f, hf, hbad⟩
    obtain ⟨e, he⟩ := parseFile_error f hbad
    exact parseIndex_error_of_file hf he
  · intro hwf
    induction files with
    | nil => exact ⟨[], rfl, List.Forall₂.nil⟩
    | cons f rest ih =>
      obtain ⟨h1, h2⟩ := hwf f (List.mem_cons_self _ _)
      obtain ⟨vm, hvm, hcomplete⟩ := parseFile_ok f h1 h2
      obtain ⟨idx, hidx, hfa⟩ :=
        ih (fun g hg => hwf g (List.mem_cons_of_mem _ hg))
      refine ⟨(f.name, vm) :: idx, ?_, ?_⟩
      · simp only [parseIndex]
        rw [hvm, hidx]
      · exact List.Forall₂.cons ⟨rfl, hcomplete⟩ hfa

/-- Witness for C6: a file with one malformed line aborts the load; a
well-formed one-record file loads completely. -/
theorem c6_load_all_or_nothing_witness :
    (∃ e, parseIndex [⟨"bad", [RawLine.malformed]⟩] = Except.error e) ∧
    (∃ idx,
      parseIndex [⟨"pkg", [RawLine.record (mkRecord "1.0.0" false)]⟩] =
        Except.ok idx ∧
      List.Forall₂ (fun (f : RegistryFile) (p : String × VersionMap) =>
        p.1 = f.name ∧
        ∀ v : VersionRecord, RawLine.record v ∈ f.lines →
          ∃ sv w, parseSemVer v.vers = some sv ∧ (sv, w) ∈ p.2)
        [⟨"pkg", [RawLine.record (mkRecord "1.0.0" false)]⟩] idx) :=
  ⟨(c6_load_all_or_nothing [⟨"bad", [RawLine.malformed]⟩]).1
    ⟨_, List.mem_cons_self _ _, Or.inl (List.mem_cons_self _ _)⟩,
   (c6_load_all_or_nothing
      [⟨"pkg", [RawLine.record (mkRecord "1.0.0" false)]⟩]).2
    (by
      intro f hf
      rcases List.mem_cons.mp hf with h | h
      · subst h
        refine ⟨by decide, ?_⟩
        intro v hv
        rcases List.mem_cons.mp hv with h | h
        · have : v = mkRecord "1.0.0" false := by injection h
          subst this
          decide
        · cases h
      · cases h)⟩

/-- C7: in every successfully loaded index, each package's version
sequence is strictly ascending by semantic version (hence duplicate
free): the `BTreeMap` keyed by the parsed version enforces it
(index.rs:68-71). -/
theorem c7_versions_sorted (files : List RegistryFile) (idx : PackageIndex)
    (h : parseIndex files = Except.ok idx) :
    ∀ p ∈ idx, List.Pairwise (fun a b => a.1 < b.1) p.2 ∧
      (p.2.map Prod.fst).Nodup := by
  intro p hp
  obtain ⟨f, _, hf⟩ := parseIndex_ok_mem h p hp
  obtain ⟨_, kvs, hkvs⟩ := parseFile_ok_shape hf
  rw [hkvs]
  have hpw := btreeOfList_pairwise kvs
  refine ⟨hpw, ?_⟩
  have hne : List.Pairwise (fun a b : SemVer => a ≠ b)
      ((btreeOfList kvs).map Prod.fst) := by
    rw [List.pairwise_map]
    refine hpw.imp ?_
    intro a b hab heq
    exact SemVer.lt_irrefl b.1 (heq ▸ hab)
  exact hne

/-- Witness for C7 at a concrete two-version registry file. -/
theorem c7_versions_sorted_witness :
    List.Pairwise (fun (a b : SemVer × VersionRecord) => a.1 < b.1)
      [((⟨0, 9, 0⟩ : SemVer), mkRecord "0.9.0" false),
       ((⟨1, 0, 0⟩ : SemVer), mkRecord "1.0.0" false)] ∧
    ([((⟨0, 9, 0⟩ : SemVer), mkRecord "0.9.0" false),
      ((⟨1, 0, 0⟩ : SemVer), mkRecord "1.0.0" false)].map
        Prod.fst).Nodup :=
  c7_versions_sorted
    [⟨"pkg", [RawLine.record (mkRecord "1.0.0" false),
              RawLine.record (mkRecord "0.9.0" false)]⟩]
    [("pkg", [(⟨0, 9, 0⟩, mkRecord "0.9.0" false),
              (⟨1, 0, 0⟩, mkRecord "1.0.0" false)])]
    rfl _ (List.mem_cons_self _ _)

/-- C10: two records of one registry file whose version strings parse to
the same semantic version do not abort the load; the `BTreeMap` collect
(index.rs:68-71) keeps exactly one record for that version, the later one
in file order, by silent overwrite. -/
theorem c10_duplicate_version_overwrites (name : String)
    (v1 v2 : VersionRecord) (sv : SemVer)
    (h1 : parseSemVer v1.vers = some sv)
    (h2 : parseSemVer v2.vers = some sv) :
    parseFile ⟨name, [RawLine.record v1, RawLine.record v2]⟩ =
      Except.ok (name, [(sv, v2)]) ∧
    parseIndex [⟨name, [RawLine.record v1, RawLine.record v2]⟩] =
      Except.ok [(name, [(sv, v2)])] := by
  have hfile : parseFile ⟨name, [RawLine.record v1, RawLine.record v2]⟩ =
      Except.ok (name, [(sv, v2)]) := by
    simp [parseFile, collectLines, parseVersions, h1, h2, btreeOfList,
      btreeInsert, SemVer.lt_irrefl sv]
  refine ⟨hfile, ?_⟩
  simp only [parseIndex]
  rw [hfile]

/-- Witness for C10: two records both versioned "1.0.0" (one yanked, one
not) collapse to the later record. -/
theorem c10_duplicate_version_overwrites_witness :
    parseFile ⟨"pkg", [RawLine.record (mkRecord "1.0.0" false),
                       RawLine.record (mkRecord "1.0.0" true)]⟩ =
      Except.ok ("pkg", [(⟨1, 0, 0⟩, mkRecord "1.0.0" true)]) ∧
    parseIndex [⟨"pkg", [RawLine.record (mkRecord "1.0.0" false),
                         RawLine.record (mkRecord "1.0.0" true)]⟩] =
      Except.ok [("pkg", [(⟨1, 0, 0⟩, mkRecord "1.0.0" true)])] :=
  c10_duplicate_version_overwrites "pkg" (mkRecord "1.0.0" false)
    (mkRecord "1.0.0" true) ⟨1, 0, 0⟩ (by decide) (by decide)

theorem buildReverseIndex_mem {parseReq : ReqParser} {index : PackageIndex}
    {e : RevEdge} :
    e ∈ buildReverseIndex parseReq index ↔
      ∃ p ∈ index, ∃ q ∈ p.2, q.2.yanked = false ∧
        ∃ d ∈ q.2.deps, depEdge parseReq index p.1 q.1 d = some e := by
  unfold buildReverseIndex
  constructor
  · intro h
    rcases List.mem_flatMap.mp h with ⟨p, hp, h2⟩
    rcases List.mem_flatMap.mp h2 with ⟨q, hq, h3⟩
    by_cases hy : q.2.yanked = true
    · rw [if_pos hy] at h3; cases h3
    · rw [if_neg hy] at h3
      rcases List.mem_filterMap.mp h3 with ⟨d, hd, hde⟩
      exact ⟨p, hp, q, hq, Bool.not_eq_true _ ▸ hy, d, hd, hde⟩
  · intro ⟨p, hp, q, hq, hy, d, hd, hde⟩
    refine List.mem_flatMap.mpr ⟨p, hp, List.mem_flatMap.mpr ⟨q, hq, ?_⟩⟩
    rw [if_neg (by rw [hy]; exact Bool.false_ne_true)]
    exact List.mem_filterMap.mpr ⟨d, hd, hde⟩

theorem depEdge_some_shape {parseReq : ReqParser} {index : PackageIndex}
    {srcName : String} {srcVer : SemVer} {d : DependencySpec} {e : RevEdge}
    (h : depEdge parseReq index srcName srcVer d = some e) :
    ∃ tvers reqf tsv trec,
      alookup index d.crate_name = some tvers ∧
      parseReq d.requirement = some reqf ∧
      tvers.reverse.find? (fun p => reqf p.1 && ! p.2.yanked) =
        some (tsv, trec) ∧
      e = ((d.crate_name, tsv), (srcName, srcVer)) := by
  unfold depEdge at h
  split at h
  · cases h
  · split at h
    · cases h
    · next tvers heqL =>
      split at h
      · cases h
      · next reqf heqR =>
        split at h
        · cases h
        · next tsv trec heqF =>
          injection h with h
          exact ⟨tvers, reqf, tsv, trec, heqL, heqR, heqF, h.symm⟩

theorem buildReverseIndex_no_yanked_key (parseReq : ReqParser)
    (index : PackageIndex) :
    ∀ e ∈ buildReverseIndex parseReq index,
      ∃ tvers trec, alookup index e.1.1 = some tvers ∧
        (e.1.2, trec) ∈ tvers ∧ trec.yanked = false := by
  intro e he
  rcases buildReverseIndex_mem.mp he with ⟨p, _, q, _, _, d, _, hde⟩
  obtain ⟨tvers, reqf, tsv, trec, hlook, _, hfind, hshape⟩ :=
    depEdge_some_shape hde
  have hpred := List.find?_some hfind
  have hmem := List.mem_of_find?_eq_some hfind
  rw [hshape]
  refine ⟨tvers, trec, hlook, List.mem_reverse.mp hmem, ?_⟩
  have := (Bool.and_eq_true _ _).mp hpred
  simpa using this.2

/-- C3: reverse-index edge construction (main.rs:204-264; the block is
commented out in `main`, embedded here as written, matching spec 4.2).
For a non-yanked dependent with a non-Dev dependency whose target exists,
whose requirement parses, and which has a matching non-yanked target
version, `depEdge` produces exactly one edge, keyed under the highest
matching non-yanked target version, valued with the dependent pair, and
the builder contains it; no edge in the built index is ever keyed under a
yanked target version; an unknown target, an unparsable requirement, or
no matching version produce no edge (and the builder is total — no
error). -/
theorem c3_reverse_index (parseReq : ReqParser) (index : PackageIndex)
    (srcName : String) (srcVer : SemVer) (srcRec : VersionRecord)
    (svm : VersionMap) (dep : DependencySpec) (bvers : VersionMap)
    (reqf : SemVer → Bool)
    (hsrcIdx : (srcName, svm) ∈ index) (hsrcMem : (srcVer, srcRec) ∈ svm)
    (hnotY : srcRec.yanked = false)
    (hdep : dep ∈ srcRec.deps)
    (hkind : dep.kind ≠ DepKindSpec.Dev)
    (hb : alookup index dep.crate_name = some bvers)
    (hreq : parseReq dep.requirement = some reqf)
    (hsorted : List.Pairwise (fun a b => a.1 < b.1) bvers)
    (hmatch : ∃ p ∈ bvers, (reqf p.1 && ! p.2.yanked) = true) :
    (∃ vstar wrec,
      depEdge parseReq index srcName srcVer dep =
        some ((dep.crate_name, vstar), (srcName, srcVer)) ∧
      (vstar, wrec) ∈ bvers ∧ reqf vstar = true ∧ wrec.yanked = false ∧
      (∀ q ∈ bvers, reqf q.1 = true → q.2.yanked = false → q.1 ≤ vstar) ∧
      ((dep.crate_name, vstar), (srcName, srcVer)) ∈
        buildReverseIndex parseReq index) ∧
    (∀ e ∈ buildReverseIndex parseReq index,
      ∃ tvers trec, alookup index e.1.1 = some tvers ∧
        (e.1.2, trec) ∈ tvers ∧ trec.yanked = false) ∧
    (∀ d2 : DependencySpec, alookup index d2.crate_name = none →
      depEdge parseReq index srcName srcVer d2 = none) ∧
    (∀ d2 : DependencySpec, parseReq d2.requirement = none →
      depEdge parseReq index srcName srcVer d2 = none) ∧
    (∀ (d2 : DependencySpec) (bv2 : VersionMap) (rf2 : SemVer → Bool),
      alookup index d2.crate_name = some bv2 →
      parseReq d2.requirement = some rf2 →
      (∀ q ∈ bv2, (rf2 q.1 && ! q.2.yanked) = false) →
      depEdge parseReq index srcName srcVer d2 = none) := by
  have hdesc : List.Pairwise (fun x y => y.1 < x.1) bvers.reverse := by
    rw [List.pairwise_reverse]
    exact hsorted
  refine ⟨?_, buildReverseIndex_no_yanked_key parseReq index, ?_, ?_, ?_⟩
  · cases hf : bvers.reverse.find? (fun p => reqf p.1 && ! p.2.yanked) with
    | none =>
      exfalso
      obtain ⟨p, hp, hpred⟩ := hmatch
      have := List.find?_eq_none.mp hf p (List.mem_reverse.mpr hp)
      exact this hpred
    | some pr =>
      obtain ⟨vstar, wrec⟩ := pr
      obtain ⟨hpred, hmem, hmax⟩ := find?_max_desc _ _ _ hdesc hf
      have hedge : depEdge parseReq index srcName srcVer dep =
          some ((dep.crate_name, vstar), (srcName, srcVer)) := by
        unfold depEdge
        rw [if_neg hkind]
        simp only [hb, hreq, hf]
      rcases (Bool.and_eq_true _ _).mp hpred with ⟨hr, hy⟩
      refine ⟨vstar, wrec, hedge, List.mem_reverse.mp hmem, hr,
        by simpa using hy, ?_, ?_⟩
      · intro q hq hqr hqy
        exact hmax q (List.mem_reverse.mpr hq) (by simp [hqr, hqy])
      · exact buildReverseIndex_mem.mpr
          ⟨(srcName, svm), hsrcIdx, (srcVer, srcRec), hsrcMem, hnotY,
           dep, hdep, hedge⟩
  · intro d2 hnone
    unfold depEdge
    split
    · rfl
    · rw [hnone]
  · intro d2 hnone
    unfold depEdge
    split
    · rfl
    · cases hl : alookup index d2.crate_name with
      | none => rfl
      | some tv => rw [hnone]
  · intro d2 bv2 rf2 hl hr hall
    unfold depEdge
    split
    · rfl
    · have : bv2.reverse.find? (fun p => rf2 p.1 && ! p.2.yanked) = none := by
        rw [List.find?_eq_none]
        intro q hq
        rw [hall q (List.mem_reverse.mp hq)]
        exact Bool.false_ne_true
      simp only [hl, hr, this]

/-- Witness for C3, the spec test case: A@1.0.0 depends on B caret 1.0, B
has versions 1.0.0, 1.2.0 (yanked), 1.5.0; the built reverse index is
exactly the one edge keyed under (B, 1.5.0) — in particular nothing is
keyed under the yanked (B, 1.2.0). -/
theorem c3_reverse_index_witness :
    buildReverseIndex demoReqParser demoIndexAB =
      [(("B", ⟨1, 5, 0⟩), ("A", ⟨1, 0, 0⟩))] ∧
    (∃ vstar wrec,
      depEdge demoReqParser demoIndexAB "A" ⟨1, 0, 0⟩ depOnB =
        some (("B", vstar), ("A", ⟨1, 0, 0⟩)) ∧
      (vstar, wrec) ∈
        [((⟨1, 0, 0⟩ : SemVer), mkRecord "1.0.0" false),
         (⟨1, 2, 0⟩, mkRecord "1.2.0" true),
         (⟨1, 5, 0⟩, mkRecord "1.5.0" false)] ∧
      caretReq 1 0 vstar = true ∧ wrec.yanked = false ∧
      (∀ q ∈ [((⟨1, 0, 0⟩ : SemVer), mkRecord "1.0.0" false),
              (⟨1, 2, 0⟩, mkRecord "1.2.0" true),
              (⟨1, 5, 0⟩, mkRecord "1.5.0" false)],
        caretReq 1 0 q.1 = true → q.2.yanked = false → q.1 ≤ vstar) ∧
      (("B", vstar), ("A", ⟨1, 0, 0⟩)) ∈
        buildReverseIndex demoReqParser demoIndexAB) :=
  ⟨rfl,
   ((c3_reverse_index demoReqParser demoIndexAB "A" ⟨1, 0, 0⟩ recordA
      [(⟨1, 0, 0⟩, recordA)] depOnB
      [(⟨1, 0, 0⟩, mkRecord "1.0.0" false),
       (⟨1, 2, 0⟩, mkRecord "1.2.0" true),
       (⟨1, 5, 0⟩, mkRecord "1.5.0" false)]
      (caretReq 1 0)
      (by decide) (by decide) rfl (by decide) (by decide) rfl rfl
      (by decide)
      ⟨(⟨1, 5, 0⟩, mkRecord "1.5.0" false), by decide, by decide⟩).1)⟩

theorem walk_insert_nodup (deps : List (String × SemVer)) :
    ∀ (seen queue : List (String × SemVer)),
      seen.Nodup →
      (deps.foldl
        (fun (acc : List (String × SemVer) × List (String × SemVer)) d =>
          if d ∈ acc.1 then acc else (acc.1 ++ [d], acc.2 ++ [d]))
        (seen, queue)).1.Nodup := by
  induction deps with
  | nil => intro seen queue h; exact h
  | cons d rest ih =>
    intro seen queue h
    simp only [List.foldl_cons]
    by_cases hd : d ∈ seen
    · rw [if_pos hd]
      exact ih seen queue h
    · rw [if_neg hd]
      refine ih (seen ++ [d]) (queue ++ [d]) ?_
      simp [List.nodup_append, h, hd]

theorem walkLoop_nodup (edges : List RevEdge) :
    ∀ (fuel : Nat) (seen queue log : List (String × SemVer)),
      seen.Nodup → (walkLoop edges fuel seen queue log).1.Nodup := by
  intro fuel
  induction fuel with
  | zero => intro seen _ _ h; exact h
  | succ n ih =>
    intro seen queue log h
    cases queue with
    | nil => exact h
    | cons front rest =>
      obtain ⟨name, sv⟩ := front
      simp only [walkLoop]
      exact ih _ _ _ (walk_insert_nodup (dependentsOf edges name sv) seen rest h)

theorem mem_insertsOf {α : Type} (x : α) :
    ∀ (l₁ l₂ : List α), (l₁ ++ x :: l₂) ∈ insertsOf x (l₁ ++ l₂) := by
  intro l₁
  induction l₁ with
  | nil => intro l₂; cases l₂ <;> simp [insertsOf]
  | cons y ys ih =>
    intro l₂
    simp only [List.cons_append, insertsOf]
    exact List.mem_cons_of_mem _ (List.mem_map.mpr ⟨ys ++ x :: l₂, ih l₂, rfl⟩)

theorem mem_perms_of_perm {α : Type} :
    ∀ {l₂ l : List α}, l.Perm l₂ → l ∈ perms l₂ := by
  intro l₂
  induction l₂ with
  | nil =>
    intro l h
    rw [List.perm_nil.mp h]
    exact List.mem_cons_self _ _
  | cons x xs ih =>
    intro l h
    have hx : x ∈ l := h.symm.subset (List.mem_cons_self _ _)
    obtain ⟨s, t, hst⟩ := List.append_of_mem hx
    subst hst
    have hperm : (s ++ t).Perm xs := by
      have h1 : (s ++ x :: t).Perm (x :: (s ++ t)) := List.perm_middle
      exact (h1.symm.trans h).cons_inv
    unfold perms
    exact List.mem_flatMap.mpr ⟨s ++ t, ih hperm, mem_insertsOf x s t⟩

/-- C9 (amended): the walk (main.rs:272-294) deduplicates with a seen-set
keyed by (package name, version) pairs, so its result never contains a
repeated pair (first conjunct, for every reverse index, walk target and
fuel); on the diamond graph — B and C reached from the target A, D
reached from both B and C — every insertion order of the four edges gives
the result set containing exactly B, C and D at their versions, with D
dequeued (visited) exactly once (second conjunct). -/
theorem c9_walk_amended :
    (∀ (edges : List RevEdge) (index : PackageIndex) (target : String)
      (req : SemVer → Bool) (fuel : Nat),
      (walk edges index target req fuel).1.Nodup) ∧
    (∀ es : List RevEdge, es.Perm diamondEdges →
      ("B", (⟨1, 0, 0⟩ : SemVer)) ∈
        (walk es diamondIndex "A" (fun _ => true) 10).1 ∧
      ("C", (⟨1, 0, 0⟩ : SemVer)) ∈
        (walk es diamondIndex "A" (fun _ => true) 10).1 ∧
      ("D", (⟨1, 0, 0⟩ : SemVer)) ∈
        (walk es diamondIndex "A" (fun _ => true) 10).1 ∧
      (walk es diamondIndex "A" (fun _ => true) 10).1.length = 3 ∧
      ((walk es diamondIndex "A" (fun _ => true) 10).2.filter
        (fun p => p.1 = "D")).length = 1) := by
  constructor
  · intro edges index target req fuel
    unfold walk
    apply walkLoop_nodup
    exact List.nodup_nil
  · have hall : ∀ es ∈ perms diamondEdges,
        ("B", (⟨1, 0, 0⟩ : SemVer)) ∈
          (walk es diamondIndex "A" (fun _ => true) 10).1 ∧
        ("C", (⟨1, 0, 0⟩ : SemVer)) ∈
          (walk es diamondIndex "A" (fun _ => true) 10).1 ∧
        ("D", (⟨1, 0, 0⟩ : SemVer)) ∈
          (walk es diamondIndex "A" (fun _ => true) 10).1 ∧
        (walk es diamondIndex "A" (fun _ => true) 10).1.length = 3 ∧
        ((walk es diamondIndex "A" (fun _ => true) 10).2.filter
          (fun p => p.1 = "D")).length = 1 := by decide
    intro es hperm
    exact hall es (mem_perms_of_perm hperm)

/-- C9, counterexample: the claim says the seen-set is keyed by package
name only, with version-level distinctness within one package not
tracked — but when the target has direct dependents E@1.0.0 and E@2.0.0,
the walk result contains both pairs (two entries for package E), so
version-level distinctness is tracked and name-only deduplication does
not hold. -/
theorem c9_walk_counterexample :
    (walk twoVersionEdges twoVersionIndex "T" (fun _ => true) 10).1 =
      [("E", ⟨1, 0, 0⟩), ("E", ⟨2, 0, 0⟩)] ∧
    ((walk twoVersionEdges twoVersionIndex "T" (fun _ => true) 10).1.filter
      (fun p => p.1 = "E")).length = 2 := by decide

/-- Witness for C9 at the concrete diamond edge list in its given order. -/
theorem c9_walk_amended_witness :
    (walk diamondEdges diamondIndex "A" (fun _ => true) 10).1.Nodup ∧
    ("B", (⟨1, 0, 0⟩ : SemVer)) ∈
      (walk diamondEdges diamondIndex "A" (fun _ => true) 10).1 ∧
    ("C", (⟨1, 0, 0⟩ : SemVer)) ∈
      (walk diamondEdges diamondIndex "A" (fun _ => true) 10).1 ∧
    ("D", (⟨1, 0, 0⟩ : SemVer)) ∈
      (walk diamondEdges diamondIndex "A" (fun _ => true) 10).1 ∧
    (walk diamondEdges diamondIndex "A" (fun _ => true) 10).1.length = 3 ∧
    ((walk diamondEdges diamondIndex "A" (fun _ => true) 10).2.filter
      (fun p => p.1 = "D")).length = 1 :=
  ⟨c9_walk_amended.1 diamondEdges diamondIndex "A" (fun _ => true) 10,
   c9_walk_amended.2 diamondEdges (List.Perm.refl _)⟩

theorem synthDependency_ok (parseReqD parsePlatform : String → Option String)
    (d : DependencySpec) (r : String)
    (hreq : parseReqD d.requirement = some r)
    (hplat : ∀ t, d.target = some t → (parsePlatform t).isSome = true) :
    ∃ out, synthDependency parseReqD parsePlatform d = Except.ok out ∧
      out.package_name = d.crate_name ∧ out.kind = mapDepKind d.kind ∧
      out.optional = d.optional ∧
      out.default_features = d.default_features ∧
      out.explicit_name = d.name ∧ out.features = d.features ∧
      (d.target = none → out.platform = none) ∧
      (∀ t, d.target = some t → out.platform = parsePlatform t) := by
  cases ht : d.target with
  | none =>
    refine ⟨⟨d.crate_name, r, d.default_features, d.name, d.features,
      mapDepKind d.kind, d.optional, none⟩,
      by simp [synthDependency, hreq, ht], rfl, rfl, rfl, rfl, rfl, rfl,
      fun _ => rfl, ?_⟩
    intro t htt
    cases htt
  | some t =>
    obtain ⟨pl, hpl⟩ := Option.isSome_iff_exists.mp (hplat t ht)
    refine ⟨⟨d.crate_name, r, d.default_features, d.name, d.features,
      mapDepKind d.kind, d.optional, some pl⟩,
      by simp [synthDependency, hreq, ht, hpl], rfl, rfl, rfl, rfl, rfl,
      rfl, ?_, ?_⟩
    · intro hnone
      cases hnone
    · intro t2 ht2
      injection ht2 with ht2
      subst ht2
      rw [hpl]

theorem synthDepList_ok (parseReqD parsePlatform : String → Option String) :
    ∀ deps : List DependencySpec,
      (∀ d ∈ deps, (parseReqD d.requirement).isSome = true ∧
        ∀ t, d.target = some t → (parsePlatform t).isSome = true) →
      ∃ outs, synthDepList parseReqD parsePlatform deps = Except.ok outs ∧
        List.Forall₂ (fun (d : DependencySpec) (out : CargoDependency) =>
          out.package_name = d.crate_name ∧ out.kind = mapDepKind d.kind ∧
          out.optional = d.optional ∧
          out.default_features = d.default_features ∧
          out.explicit_name = d.name ∧ out.features = d.features ∧
          (d.target = none → out.platform = none) ∧
          (∀ t, d.target = some t → out.platform = parsePlatform t))
          deps outs := by
  intro deps
  induction deps with
  | nil => intro _; exact ⟨[], rfl, List.Forall₂.nil⟩
  | cons d0 rest ih =>
    intro h
    obtain ⟨hreq0, hplat0⟩ := h d0 (List.mem_cons_self _ _)
    obtain ⟨r, hr⟩ := Option.isSome_iff_exists.mp hreq0
    obtain ⟨out, hout, hprops⟩ :=
      synthDependency_ok parseReqD parsePlatform d0 r hr hplat0
    obtain ⟨outs, houts, hfa⟩ :=
      ih (fun d hd => h d (List.mem_cons_of_mem _ hd))
    exact ⟨out :: outs, by simp [synthDepList, hout, houts],
      List.Forall₂.cons hprops hfa⟩

theorem synthDependency_err (parseReqD parsePlatform : String → Option String)
    (d : DependencySpec)
    (h : parseReqD d.requirement = none ∨
      ∃ t, d.target = some t ∧ parsePlatform t = none) :
    ∃ e, synthDependency parseReqD parsePlatform d = Except.error e := by
  rcases h with h | ⟨t, ht, hpl⟩
  · exact ⟨d.requirement, by simp [synthDependency, h]⟩
  · cases hr : parseReqD d.requirement with
    | none => exact ⟨d.requirement, by simp [synthDependency, hr]⟩
    | some r => exact ⟨t, by simp [synthDependency, hr, ht, hpl]⟩

theorem synthDepList_err (parseReqD parsePlatform : String → Option String) :
    ∀ deps : List DependencySpec,
      (∃ d ∈ deps, parseReqD d.requirement = none ∨
        ∃ t, d.target = some t ∧ parsePlatform t = none) →
      ∃ e, synthDepList parseReqD parsePlatform deps = Except.error e := by
  intro deps
  induction deps with
  | nil => intro ⟨d, hd, _⟩; cases hd
  | cons d0 rest ih =>
    intro ⟨d, hd, hbad⟩
    cases hsd : synthDependency parseReqD parsePlatform d0 with
    | error e => exact ⟨e, by simp [synthDepList, hsd]⟩
    | ok out =>
      rcases List.mem_cons.mp hd with h1 | h1
      · subst h1
        obtain ⟨e, he⟩ := synthDependency_err _ _ d hbad
        rw [hsd] at he
        cases he
      · obtain ⟨e, he⟩ := ih ⟨d, h1, hbad⟩
        exact ⟨e, by simp [synthDepList, hsd, he]⟩

/-- C8: manifest synthesis (synth_workspace.rs).  The dependency kinds map
1:1; when every requirement and platform predicate parses and the
minimum-supported-rust-version (if present) parses, the synthesised
manifest carries identity, one entry per dependency with all flags,
rename, features and parsed platform carried through, the feature map,
links and the rust-version constraint, with empty defaults for all
resolution-irrelevant metadata; when a platform predicate, requirement or
rust-version string does not parse, synthesis fails with an error for
this one package-version. -/
theorem c8_synth_manifest
    (parseReqD parsePlatform parseRust : String → Option String)
    (crate_name : String) (version : VersionRecord) :
    (mapDepKind DepKindSpec.Normal = DepKindCargo.Normal ∧
     mapDepKind DepKindSpec.Dev = DepKindCargo.Development ∧
     mapDepKind DepKindSpec.Build = DepKindCargo.Build) ∧
    ((∀ d ∈ version.deps, (parseReqD d.requirement).isSome = true ∧
        ∀ t, d.target = some t → (parsePlatform t).isSome = true) →
     (∀ s, version.rust_version = some s → (parseRust s).isSome = true) →
      ∃ m, synthManifest parseReqD parsePlatform parseRust crate_name
          version = Except.ok m ∧
        m.summary.name = crate_name ∧
        m.summary.vers = version.vers ∧
        m.summary.source = "registry+crates-io" ∧
        m.summary.features = version.features ∧
        m.summary.links = version.links ∧
        m.metadata.authors = [] ∧ m.metadata.keywords = [] ∧
        m.metadata.categories = [] ∧ m.metadata.license = none ∧
        m.metadata.license_file = none ∧ m.metadata.description = none ∧
        m.metadata.readme = none ∧ m.metadata.homepage = none ∧
        m.metadata.repository = none ∧ m.metadata.documentation = none ∧
        m.metadata.links = none ∧
        (version.rust_version = none → m.metadata.rust_version = none) ∧
        (∀ s, version.rust_version = some s →
          m.metadata.rust_version = parseRust s) ∧
        List.Forall₂ (fun (d : DependencySpec) (out : CargoDependency) =>
          out.package_name = d.crate_name ∧ out.kind = mapDepKind d.kind ∧
          out.optional = d.optional ∧
          out.default_features = d.default_features ∧
          out.explicit_name = d.name ∧ out.features = d.features ∧
          (d.target = none → out.platform = none) ∧
          (∀ t, d.target = some t → out.platform = parsePlatform t))
          version.deps m.summary.deps) ∧
    (((∃ d ∈ version.deps, parseReqD d.requirement = none ∨
        ∃ t, d.target = some t ∧ parsePlatform t = none) ∨
      (∃ s, version.rust_version = some s ∧ parseRust s = none)) →
      ∃ e, synthManifest parseReqD parsePlatform parseRust crate_name
        version = Except.error e) := by
  refine ⟨⟨rfl, rfl, rfl⟩, ?_, ?_⟩
  · intro hdeps hrust
    obtain ⟨outs, houts, hfa⟩ :=
      synthDepList_ok parseReqD parsePlatform version.deps hdeps
    cases hrvsrc : version.rust_version with
    | none =>
      have hR : synthRustVersion parseRust version = Except.ok none := by
        simp [synthRustVersion, hrvsrc]
      refine ⟨⟨⟨crate_name, version.vers, "registry+crates-io", outs,
          version.features, version.links, none⟩,
          ⟨[], [], [], none, none, none, none, none, none, none, none,
            none⟩, none⟩, ?_,
        rfl, rfl, rfl, rfl, rfl, rfl, rfl, rfl, rfl, rfl, rfl, rfl, rfl,
        rfl, rfl, rfl, fun _ => rfl, ?_, hfa⟩
      · unfold synthManifest synthSummary synthManifestMetadata
          synthDependencies
        simp only [houts, hR]
      · intro s hs
        cases hs
    | some s =>
      obtain ⟨rv, hrvs⟩ := Option.isSome_iff_exists.mp (hrust s hrvsrc)
      have hR : synthRustVersion parseRust version = Except.ok (some rv) := by
        simp [synthRustVersion, hrvsrc, hrvs]
      refine ⟨⟨⟨crate_name, version.vers, "registry+crates-io", outs,
          version.features, version.links, some rv⟩,
          ⟨[], [], [], none, none, none, none, none, none, none, none,
            some rv⟩, some rv⟩, ?_,
        rfl, rfl, rfl, rfl, rfl, rfl, rfl, rfl, rfl, rfl, rfl, rfl, rfl,
        rfl, rfl, rfl, ?_, ?_, hfa⟩
      · unfold synthManifest synthSummary synthManifestMetadata
          synthDependencies
        simp only [houts, hR]
      · intro hnone
        cases hnone
      · intro s2 hs2
        injection hs2 with hs2
        subst hs2
        rw [hrvs]
  · intro hbad
    rcases hbad with ⟨d, hd, hbadd⟩ | ⟨s, hs, hsn⟩
    · obtain ⟨e, he⟩ :=
        synthDepList_err parseReqD parsePlatform version.deps ⟨d, hd, hbadd⟩
      refine ⟨e, ?_⟩
      unfold synthManifest synthSummary synthDependencies
      simp only [he]
    · have hR : synthRustVersion parseRust version = Except.error s := by
        simp [synthRustVersion, hs, hsn]
      cases hdl : synthDepList parseReqD parsePlatform version.deps with
      | error e =>
        refine ⟨e, ?_⟩
        unfold synthManifest synthSummary synthDependencies
        simp only [hdl]
      | ok outs =>
        refine ⟨s, ?_⟩
        unfold synthManifest synthSummary synthDependencies
        simp only [hdl, hR]

/-- Witness for C8: with identity external parsers, the concrete record
synthesises fully with every field carried through; with a rejecting
platform parser, synthesis fails for that package-version. -/
theorem c8_synth_manifest_witness :
    (∃ m, synthManifest idParser idParser idParser "mycrate"
        demoSynthRecord = Except.ok m ∧
      m.summary.name = "mycrate" ∧
      m.summary.vers = demoSynthRecord.vers ∧
      m.summary.source = "registry+crates-io" ∧
      m.summary.features = demoSynthRecord.features ∧
      m.summary.links = demoSynthRecord.links ∧
      m.metadata.authors = [] ∧ m.metadata.keywords = [] ∧
      m.metadata.categories = [] ∧ m.metadata.license = none ∧
      m.metadata.license_file = none ∧ m.metadata.description = none ∧
      m.metadata.readme = none ∧ m.metadata.homepage = none ∧
      m.metadata.repository = none ∧ m.metadata.documentation = none ∧
      m.metadata.links = none ∧
      (demoSynthRecord.rust_version = none →
        m.metadata.rust_version = none) ∧
      (∀ s, demoSynthRecord.rust_version = some s →
        m.metadata.rust_version = idParser s) ∧
      List.Forall₂ (fun (d : DependencySpec) (out : CargoDependency) =>
        out.package_name = d.crate_name ∧ out.kind = mapDepKind d.kind ∧
        out.optional = d.optional ∧
        out.default_features = d.default_features ∧
        out.explicit_name = d.name ∧ out.features = d.features ∧
        (d.target = none → out.platform = none) ∧
        (∀ t, d.target = some t → out.platform = idParser t))
        demoSynthRecord.deps m.summary.deps) ∧
    (∃ e, synthManifest idParser rejectParser idParser "mycrate"
      demoSynthRecord = Except.error e) :=
  ⟨(c8_synth_manifest idParser idParser idParser "mycrate"
      demoSynthRecord).2.1
    (fun d _ => ⟨rfl, fun t _ => rfl⟩) (fun s _ => rfl),
   (c8_synth_manifest idParser rejectParser idParser "mycrate"
      demoSynthRecord).2.2
    (Or.inl ⟨demoSynthDep, by decide,
      Or.inr ⟨"cfg(windows)", rfl, rfl⟩⟩)⟩
